import Mathlib

/-!
Verification of the Shadowsocks AEAD tunnel (src/aead.go).

The Go code is shallowly embedded: bytes are `Nat` (with `% 256` where the
source casts to `byte`), byte strings are `List Nat`, and the stateful
`aeadTunnel` struct becomes the `Tunnel` structure threaded explicitly
through each operation.  The underlying duplex stream is modelled by the
`inStream` field (bytes still available to `io.ReadFull`) together with
`sent`/`calls` (chunks successfully written so far, and the number of
underlying write calls attempted); a `budget` parameter says how many
underlying stream writes succeed before the stream starts failing, which
models mid-sequence transport write errors.  The pluggable `cipher.AEAD`
instance becomes the `AEADSpec` record of pure functions; `AEADSpec.Good`
captures the AEAD contract (`Open` inverts `Seal`, ciphertext length is
plaintext length plus `Overhead()`), which the Go code relies on.
-/

namespace Shadowsocks

/-- `MaxPayload = 0x3FFF` (src/aead.go line 13). -/
def MaxPayload : Nat := 0x3FFF

/-- A pluggable AEAD transform, the model of Go's `cipher.AEAD` as used by
`aeadTunnel`: `tagSize` is `Overhead()`, `seal nonce m` is
`Seal(nil, nonce, m, nil)` and `opn nonce c` is `Open(nil, nonce, c, nil)`,
returning `none` on authentication failure. -/
structure AEADSpec where
  tagSize : Nat
  sealOp : List Nat → List Nat → List Nat
  opn : List Nat → List Nat → Option (List Nat)

/-- The AEAD contract assumed of any real `cipher.AEAD` (e.g. AES-GCM):
sealing adds exactly `Overhead()` bytes, and opening a sealed message under
the same nonce returns the original plaintext. -/
def AEADSpec.Good (A : AEADSpec) : Prop :=
  (∀ nonce m, (A.sealOp nonce m).length = m.length + A.tagSize) ∧
  (∀ nonce m, A.opn nonce (A.sealOp nonce m) = some m)

/-- State of an `aeadTunnel` (src/aead.go lines 72-81) plus its underlying
stream: `inStream` models the bytes the underlying `io.ReadWriter` still has
available for reading, `sent` the wire chunks successfully written to it
(in order, one entry per successful underlying `Write` call) and `calls` the
number of underlying `Write` calls attempted.  `rnonce`/`wnonce` are the
little-endian nonce counters `RNonce`/`WNonce`.

The leftover cache `c.cache` in the source is a re-slice of the shared
scratch buffer: line 130 sets `c.cache = raw[nn:]`, where `raw` aliases
`c.buffer[0:size]`.  It is modelled by two fields: `cache` holds the bytes
the cache slice currently contains, and `cacheEnd` holds the slice's end
position inside `c.buffer` (the `size` of the frame it came from; draining
the cache advances its start but not its end, so `cacheEnd` is stable and
the region is `[cacheEnd - cache.length, cacheEnd)`).  The bytes of
`c.buffer` outside the cache region never flow into any observable value
(the read path overwrites the buffer only after the cache is drained, and
`Open`/`Seal` write their full output over the regions later read), so the
buffer is not carried as a separate field; its one observable effect — the
in-place `Seal` calls of `aeadTunnel.write` overwriting the region a
non-empty cache aliases — is modelled by `cacheAfterSeal` below. -/
structure Tunnel where
  inStream : List Nat
  sent : List (List Nat)
  calls : Nat
  rnonce : List Nat
  wnonce : List Nat
  cache : List Nat
  cacheEnd : Nat
  deriving DecidableEq, Repr

/-- `increment` (src/aead.go lines 167-174): little-endian increment with
carry, wrapping around on full overflow. -/
def increment : List Nat → List Nat
  | [] => []
  | b :: rest => if (b + 1) % 256 = 0 then 0 :: increment rest else ((b + 1) % 256) :: rest

/-- The value of a byte string read as a little-endian unsigned integer. -/
def leVal : List Nat → Nat
  | [] => 0
  | b :: rest => b + 256 * leVal rest

/-- Every entry of the list is a byte value. -/
def byteOK (b : List Nat) : Prop := ∀ x ∈ b, x < 256

/-- The nonce counter as created by `Shadow` (src/aead.go lines 65-66):
`make([]byte, p.NonceSize)`, i.e. `nonceSize` zero bytes. -/
def initialNonce (k : Nat) : List Nat := List.replicate k 0

/-- Decoding of the decrypted length field (src/aead.go line 117):
`(int(raw[0])<<8 + int(raw[1])) & MaxPayload`. -/
def decodeLen (b0 b1 : Nat) : Nat := (b0 <<< 8 + b1) &&& MaxPayload

/-- `aeadTunnel.Open` (src/aead.go lines 83-88).  The `defer` increments
`RNonce` after `RAEAD.Open` returns, whether or not it succeeded. -/
def tunnelOpen (RA : AEADSpec) (t : Tunnel) (ct : List Nat) : Option (List Nat) × Tunnel :=
  (RA.opn t.rnonce ct, { t with rnonce := increment t.rnonce })

/-- `aeadTunnel.Seal` (src/aead.go lines 90-95).  The `defer` increments
`WNonce` after `WAEAD.Seal` returns. -/
def tunnelSeal (WA : AEADSpec) (t : Tunnel) (pt : List Nat) : List Nat × Tunnel :=
  (WA.sealOp t.wnonce pt, { t with wnonce := increment t.wnonce })

/-- `aeadTunnel.Read` (src/aead.go lines 97-133).  Returns the bytes
delivered to the caller (so `n` is their length), an error flag, and the
new tunnel state.  `io.ReadFull` is modelled as taking the requested
prefix of `inStream`, consuming it, and failing when fewer bytes are
available. -/
def aeadRead (RA : AEADSpec) (t : Tunnel) (req : Nat) : List Nat × Bool × Tunnel :=
  if t.cache.length ≠ 0 ∧ req ≤ t.cache.length then
    (t.cache.take req, false, { t with cache := t.cache.drop req })
  else
    let out1 := t.cache
    let hdrLen := 2 + RA.tagSize
    let hdr := t.inStream.take hdrLen
    let t1 : Tunnel := { t with cache := [], inStream := t.inStream.drop hdrLen }
    if hdr.length < hdrLen then (out1, true, t1)
    else
      match tunnelOpen RA t1 hdr with
      | (none, t2) => (out1, true, t2)
      | (some lenB, t2) =>
        let size := decodeLen (lenB.getD 0 0) (lenB.getD 1 0)
        let bodyLen := size + RA.tagSize
        let body := t2.inStream.take bodyLen
        let t3 : Tunnel := { t2 with inStream := t2.inStream.drop bodyLen }
        if body.length < bodyLen then (out1, true, t3)
        else
          match tunnelOpen RA t3 body with
          | (none, t4) => (out1, true, t4)
          | (some payload, t4) =>
            let pay := payload.take size
            let nn := min (req - out1.length) pay.length
            let t5 : Tunnel :=
              if 0 < (pay.drop nn).length then
                { t4 with cache := pay.drop nn, cacheEnd := size }
              else t4
            (out1 ++ pay.take nn, false, t5)

/-- Helper for `splitPieces`: fuel-indexed so the recursion is structural
(the fuel is an upper bound on the number of loop iterations). -/
def splitPiecesAux : Nat → List Nat → List (List Nat)
  | _, [] => []
  | 0, _ :: _ => []
  | fuel + 1, x :: xs => (x :: xs).take MaxPayload :: splitPiecesAux fuel ((x :: xs).drop MaxPayload)

/-- The successive pieces `p[i*MaxPayload : min((i+1)*MaxPayload, len(p))]`
that the `aeadTunnel.Write` loop (src/aead.go lines 137-147) passes to
`aeadTunnel.write`; the loop runs while `i*MaxPayload < len(p)`, so an
empty input yields no pieces. -/
def splitPieces (p : List Nat) : List (List Nat) := splitPiecesAux p.length p

/-- The leftover-cache bytes after `aeadTunnel.write` seals a chunk in
place into the shared scratch buffer.  The two `Seal` calls (src/aead.go
lines 156-157) write `chunk = c1 ++ c2` over `c.buffer[0 : chunk.length)`
(Go's `sliceForAppend` reuses the buffer's backing array since its capacity
always suffices).  A cache slice occupying `[off, cacheEnd)` with
`off = cacheEnd - cache.length` therefore now reads the chunk's bytes on
the part of its region below `chunk.length` and its old bytes above it:
`take`/`drop` truncation makes the formula also cover a region entirely
above the overwritten prefix (`chunk.length ≤ off`), where the cache is
untouched. -/
def cacheAfterSeal (chunk cache : List Nat) (cacheEnd : Nat) : List Nat :=
  ((chunk.drop (cacheEnd - cache.length)).take cache.length) ++
    cache.drop (chunk.length - (cacheEnd - cache.length))

/-- `aeadTunnel.write` (src/aead.go lines 150-163): one chunk.  Rejects an
oversized piece before sealing anything; otherwise seals the big-endian
length bytes `byte(size>>8), byte(size)` and then the payload — both in
place into the shared scratch buffer, which rewrites the bytes a non-empty
leftover cache aliases (`cacheAfterSeal`) — and writes the concatenation to
the underlying stream in one call, which succeeds iff fewer than `budget`
underlying write calls have happened so far.  On a stream failure the
function returns `0` for this piece (its named return `n` is never
assigned); the seals, and hence the cache corruption, have already
happened. -/
def aeadWriteChunk (WA : AEADSpec) (budget : Nat) (t : Tunnel) (piece : List Nat) :
    Nat × Bool × Tunnel :=
  if MaxPayload < piece.length then (0, true, t)
  else
    let s1 := tunnelSeal WA t [(piece.length >>> 8) % 256, piece.length % 256]
    let s2 := tunnelSeal WA s1.2 piece
    let newCache := cacheAfterSeal (s1.1 ++ s2.1) t.cache t.cacheEnd
    if s2.2.calls < budget then
      (piece.length, false,
        { s2.2 with sent := s2.2.sent ++ [s1.1 ++ s2.1], calls := s2.2.calls + 1,
                    cache := newCache })
    else (0, true, { s2.2 with calls := s2.2.calls + 1, cache := newCache })

/-- The `aeadTunnel.Write` loop (src/aead.go lines 134-149) over the list of
pieces: accumulates the per-piece byte counts and stops at the first error. -/
def aeadWriteLoop (WA : AEADSpec) (budget : Nat) : Tunnel → List (List Nat) → Nat × Bool × Tunnel
  | t, [] => (0, false, t)
  | t, piece :: rest =>
    let r := aeadWriteChunk WA budget t piece
    if r.2.1 then (r.1, true, r.2.2)
    else
      let r2 := aeadWriteLoop WA budget r.2.2 rest
      (r.1 + r2.1, r2.2.1, r2.2.2)

/-- `aeadTunnel.Write` (src/aead.go lines 134-149). -/
def aeadWrite (WA : AEADSpec) (budget : Nat) (t : Tunnel) (p : List Nat) : Nat × Bool × Tunnel :=
  aeadWriteLoop WA budget t (splitPieces p)

/-- The wire bytes of one chunk for a piece sealed starting at write nonce
`wn`: encrypted length field followed by encrypted payload (the two `Seal`
calls of `aeadTunnel.write`). -/
def frameBytes (A : AEADSpec) (wn : List Nat) (piece : List Nat) : List Nat :=
  A.sealOp wn [(piece.length >>> 8) % 256, piece.length % 256] ++ A.sealOp (increment wn) piece

/-- The wire bytes of a sequence of chunks, the write nonce advancing twice
per chunk. -/
def framesWire (A : AEADSpec) : List Nat → List (List Nat) → List Nat
  | _, [] => []
  | wn, piece :: rest => frameBytes A wn piece ++ framesWire A (increment (increment wn)) rest

/-- A sequence of `aeadTunnel.Read` calls with the given request sizes;
returns the concatenation of all delivered bytes and the final state. -/
def readMany (RA : AEADSpec) : Tunnel → List Nat → List Nat × Tunnel
  | t, [] => ([], t)
  | t, q :: qs =>
    let r := aeadRead RA t q
    let r2 := readMany RA r.2.2 qs
    (r.1 ++ r2.1, r2.2)

/-- A sequence of `aeadTunnel.Open` calls on the given ciphertexts (state
effect only). -/
def openMany (RA : AEADSpec) : Tunnel → List (List Nat) → Tunnel
  | t, [] => t
  | t, ct :: rest => openMany RA (tunnelOpen RA t ct).2 rest

/-- A sequence of `aeadTunnel.Seal` calls on the given plaintexts (state
effect only). -/
def sealMany (WA : AEADSpec) : Tunnel → List (List Nat) → Tunnel
  | t, [] => t
  | t, pt :: rest => sealMany WA (tunnelSeal WA t pt).2 rest

/-- Possible outcomes of a subkey derivation call.  `err` stands for an
explicit error result returned to the caller; `panicked` stands for Go's
`panic`, which aborts the process.  `err` is part of the outcome space so
that the error-handling claim can be stated; the source never produces it. -/
inductive KDFResult where
  | ok (key : List Nat) : KDFResult
  | err : KDFResult
  | panicked : KDFResult
  deriving DecidableEq, Repr

/-- `hkdfSHA1` (src/aead.go lines 176-181).  The HKDF reader either fills
the requested key (modelled by the `fill` parameter carrying the derived
bytes) or fails to fill it (`fill = none`, e.g. when more than
`255 * Size(SHA1)` bytes are requested); on failure the source calls
`panic(err)` instead of returning an error. -/
def hkdfSHA1 (fill : Option (List Nat)) : KDFResult :=
  match fill with
  | some key => KDFResult.ok key
  | none => KDFResult.panicked

/-- A concrete well-behaved AEAD used to instantiate witnesses: one tag
byte `0` appended by `seal`, checked and stripped by `opn`. -/
def A0 : AEADSpec where
  tagSize := 1
  sealOp := fun _ m => m ++ [0]
  opn := fun _ c => if c.getLast? = some 0 then some c.dropLast else none

/-- A concrete AEAD whose `opn` always fails (models a tampered stream or
wrong key: `cipher.AEAD.Open` returns an error). -/
def failA : AEADSpec where
  tagSize := 1
  sealOp := fun _ m => m ++ [0]
  opn := fun _ _ => none

/-- A freshly created tunnel with one-byte nonce counters. -/
def T0 : Tunnel :=
  { inStream := [], sent := [], calls := 0, rnonce := [0], wnonce := [0],
    cache := [], cacheEnd := 0 }

/-- A tunnel whose leftover cache holds three bytes, occupying the buffer
region `[0, 3)` (a fully undelivered 3-byte frame). -/
def TC : Tunnel := { T0 with cache := [4, 5, 6], cacheEnd := 3 }

/-- A tunnel whose input stream holds exactly the wire bytes that
`aeadWrite A0 1 T0 [10, 20, 30]` produces. -/
def rC1 : Tunnel :=
  { inStream := [0, 3, 0, 10, 20, 30, 0], sent := [], calls := 0,
    rnonce := [0], wnonce := [0], cache := [], cacheEnd := 0 }

/-- A tunnel as left by a read that delivered one byte of a 3-byte frame
with payload `[7, 9, 9]`: the cache holds `[9, 9]`, aliasing buffer region
`[1, 3)`. -/
def W8 : Tunnel :=
  { inStream := [], sent := [], calls := 0, rnonce := [0], wnonce := [0],
    cache := [9, 9], cacheEnd := 3 }

/-! Helper lemmas about the nonce counter. -/

theorem maxPayload_pos : 0 < MaxPayload := by decide

theorem increment_length (b : List Nat) : (increment b).length = b.length := by
  induction b with
  | nil => rfl
  | cons x xs ih =>
    unfold increment
    split
    · simp [ih]
    · simp

theorem increment_byteOK {b : List Nat} (h : byteOK b) : increment b |> byteOK := by
  induction b with
  | nil => exact h
  | cons x xs ih =>
    unfold increment
    split
    · intro y hy
      rcases List.mem_cons.1 hy with h1 | h2
      · omega
      · exact ih (fun z hz => h z (List.mem_cons_of_mem _ hz)) y h2
    · intro y hy
      rcases List.mem_cons.1 hy with h1 | h2
      · subst h1; exact Nat.mod_lt _ (by norm_num)
      · exact h y (List.mem_cons_of_mem _ h2)

theorem leVal_lt {b : List Nat} (h : byteOK b) : leVal b < 2 ^ (8 * b.length) := by
  induction b with
  | nil => simp [leVal]
  | cons x xs ih =>
    have hx : x < 256 := h x (List.mem_cons_self x xs)
    have hxs := ih (fun z hz => h z (List.mem_cons_of_mem _ hz))
    simp only [leVal, List.length_cons]
    have hpow : 2 ^ (8 * (xs.length + 1)) = 256 * 2 ^ (8 * xs.length) := by
      rw [Nat.mul_add, pow_add]; ring
    rw [hpow]
    omega

theorem leVal_increment {b : List Nat} (h : byteOK b) :
    leVal (increment b) = (leVal b + 1) % 2 ^ (8 * b.length) := by
  induction b with
  | nil => simp [increment, leVal]
  | cons x xs ih =>
    have hx : x < 256 := h x (List.mem_cons_self x xs)
    have hxs : byteOK xs := fun z hz => h z (List.mem_cons_of_mem _ hz)
    have hpow : 2 ^ (8 * (xs.length + 1)) = 256 * 2 ^ (8 * xs.length) := by
      rw [Nat.mul_add, pow_add]; ring
    unfold increment
    by_cases hc : (x + 1) % 256 = 0
    · rw [if_pos hc]
      have hx255 : x = 255 := by omega
      subst hx255
      simp only [leVal, List.length_cons]
      rw [ih hxs, hpow]
      have harith : 255 + 256 * leVal xs + 1 = 256 * (leVal xs + 1) := by ring
      rw [harith, Nat.mul_mod_mul_left]
      omega
    · rw [if_neg hc]
      simp only [leVal, List.length_cons]
      have hx1 : (x + 1) % 256 = x + 1 := Nat.mod_eq_of_lt (by omega)
      rw [hx1]
      have hlt : x + 256 * leVal xs + 1 < 2 ^ (8 * (xs.length + 1)) := by
        have := leVal_lt hxs
        rw [hpow]
        omega
      rw [Nat.mod_eq_of_lt hlt]
      ring

theorem initialNonce_byteOK (k : Nat) : byteOK (initialNonce k) := by
  intro x hx
  rcases (List.mem_replicate.1 hx) with ⟨-, rfl⟩
  norm_num

theorem leVal_initialNonce (k : Nat) : leVal (initialNonce k) = 0 := by
  induction k with
  | zero => rfl
  | succ n ih =>
    have hstep : initialNonce (n + 1) = 0 :: initialNonce n := by
      simp [initialNonce, List.replicate_succ]
    rw [hstep]
    simp only [leVal]
    rw [ih]

theorem initialNonce_length (k : Nat) : (initialNonce k).length = k := by
  simp [initialNonce]

/-! Helper lemmas about the length field. -/

theorem decodeLen_le (b0 b1 : Nat) : decodeLen b0 b1 ≤ MaxPayload :=
  Nat.and_le_right

theorem decodeLen_encode {L : Nat} (h : L ≤ MaxPayload) :
    decodeLen ((L >>> 8) % 256) (L % 256) = L := by
  have hL : L ≤ 16383 := h
  have h8 : L >>> 8 = L / 256 := by
    rw [Nat.shiftRight_eq_div_pow]
  have hlt : L / 256 < 256 := by omega
  unfold decodeLen MaxPayload
  rw [h8, Nat.mod_eq_of_lt hlt, Nat.shiftLeft_eq]
  have hdm : L / 256 * 2 ^ 8 + L % 256 = L := by
    have h28 : (2 : Nat) ^ 8 = 256 := by norm_num
    rw [h28]
    omega
  rw [hdm]
  have hmask : (16383 : Nat) = 2 ^ 14 - 1 := by norm_num
  rw [hmask, Nat.and_pow_two_sub_one_eq_mod]
  exact Nat.mod_eq_of_lt (by omega)

/-! Helper lemmas about the Write loop's splitting of the input. -/

theorem splitPiecesAux_nil (f : Nat) : splitPiecesAux f [] = [] := by
  cases f <;> rfl

theorem splitPiecesAux_congr :
    ∀ (f1 f2 : Nat) (p : List Nat), p.length ≤ f1 → p.length ≤ f2 →
      splitPiecesAux f1 p = splitPiecesAux f2 p := by
  intro f1
  induction f1 with
  | zero =>
    intro f2 p h1 _
    have hp : p = [] := List.eq_nil_of_length_eq_zero (by omega)
    subst hp
    rw [splitPiecesAux_nil, splitPiecesAux_nil]
  | succ g ih =>
    intro f2 p h1 h2
    cases p with
    | nil => rw [splitPiecesAux_nil, splitPiecesAux_nil]
    | cons x xs =>
      cases f2 with
      | zero => simp at h2
      | succ g2 =>
        show _ :: splitPiecesAux g _ = _ :: splitPiecesAux g2 _
        congr 1
        apply ih
        · simp only [List.length_drop, List.length_cons] at *
          have := maxPayload_pos
          omega
        · simp only [List.length_drop, List.length_cons] at *
          have := maxPayload_pos
          omega

theorem splitPieces_nil : splitPieces [] = [] := rfl

theorem splitPieces_cons (p : List Nat) (h : p ≠ []) :
    splitPieces p = p.take MaxPayload :: splitPieces (p.drop MaxPayload) := by
  obtain ⟨x, xs, rfl⟩ := List.exists_cons_of_ne_nil h
  show splitPiecesAux (xs.length + 1) (x :: xs) = _
  show (x :: xs).take MaxPayload :: splitPiecesAux xs.length ((x :: xs).drop MaxPayload) = _
  congr 1
  apply splitPiecesAux_congr
  · simp only [List.length_drop, List.length_cons]
    have := maxPayload_pos
    omega
  · exact le_refl _

theorem splitPieces_flatten (p : List Nat) : (splitPieces p).flatten = p := by
  by_cases h : p = []
  · subst h; rfl
  · rw [splitPieces_cons p h]
    simp only [List.flatten_cons]
    rw [splitPieces_flatten (p.drop MaxPayload)]
    exact List.take_append_drop _ _
termination_by p.length
decreasing_by
  have := List.length_pos.2 h
  simp only [List.length_drop]
  have := maxPayload_pos
  omega

theorem splitPieces_piece_le (p : List Nat) : ∀ q ∈ splitPieces p, q.length ≤ MaxPayload := by
  by_cases h : p = []
  · subst h; intro q hq; simp [splitPieces_nil] at hq
  · rw [splitPieces_cons p h]
    intro q hq
    rcases List.mem_cons.1 hq with rfl | hq2
    · exact List.length_take_le _ _
    · exact splitPieces_piece_le (p.drop MaxPayload) q hq2
termination_by p.length
decreasing_by
  have := List.length_pos.2 h
  simp only [List.length_drop]
  have := maxPayload_pos
  omega

theorem splitPieces_length_eq (p : List Nat) :
    (splitPieces p).length = (p.length + MaxPayload - 1) / MaxPayload := by
  by_cases h : p = []
  · subst h; simp [splitPieces_nil, MaxPayload]
  · rw [splitPieces_cons p h]
    simp only [List.length_cons]
    rw [splitPieces_length_eq (p.drop MaxPayload)]
    simp only [List.length_drop]
    have hp : 0 < p.length := List.length_pos.2 h
    have hMP := maxPayload_pos
    have key : p.length + MaxPayload - 1 = (p.length - 1) + MaxPayload := by omega
    rw [key, Nat.add_div_right _ hMP]
    congr 1
    by_cases hle : p.length ≤ MaxPayload
    · have e1 : p.length - MaxPayload = 0 := by omega
      rw [e1]
      rw [Nat.div_eq_of_lt (by omega), Nat.div_eq_of_lt (by omega)]
    · have e : p.length - MaxPayload + MaxPayload - 1 = p.length - 1 := by omega
      rw [e]
termination_by p.length
decreasing_by
  have := List.length_pos.2 h
  simp only [List.length_drop]
  have := maxPayload_pos
  omega

/-! Computation lemmas characterising one `aeadTunnel.Read` call in each of
its three regimes: served from the cache, one frame decoded from a
well-formed stream, and end of stream. -/

theorem aeadRead_cache_hit (RA : AEADSpec) (t : Tunnel) (req : Nat)
    (hc : t.cache ≠ []) (hreq : req ≤ t.cache.length) :
    aeadRead RA t req = (t.cache.take req, false, { t with cache := t.cache.drop req }) := by
  unfold aeadRead
  rw [if_pos ⟨fun h0 => hc (List.length_eq_zero.1 h0), hreq⟩]

theorem aeadRead_eof (RA : AEADSpec) (t : Tunnel) (req : Nat)
    (hnot : ¬(t.cache.length ≠ 0 ∧ req ≤ t.cache.length)) (hs : t.inStream = []) :
    aeadRead RA t req = (t.cache, true, { t with cache := [], inStream := [] }) := by
  unfold aeadRead
  rw [if_neg hnot]
  simp only [hs, List.take_nil, List.drop_nil, List.length_nil]
  rw [if_pos (by omega : (0 : Nat) < 2 + RA.tagSize)]

theorem aeadRead_frame (RA : AEADSpec) (hA : RA.Good) (t : Tunnel) (req : Nat)
    (q rest : List Nat)
    (hnot : ¬(t.cache.length ≠ 0 ∧ req ≤ t.cache.length))
    (hq : q.length ≤ MaxPayload)
    (hs : t.inStream = frameBytes RA t.rnonce q ++ rest) :
    aeadRead RA t req =
      (t.cache ++ q.take (min (req - t.cache.length) q.length), false,
       { t with inStream := rest,
                rnonce := increment (increment t.rnonce),
                cache := q.drop (min (req - t.cache.length) q.length),
                cacheEnd :=
                  if 0 < (q.drop (min (req - t.cache.length) q.length)).length
                  then q.length else t.cacheEnd }) := by
  obtain ⟨hlen, hopen⟩ := hA
  have hlen1 : (RA.sealOp t.rnonce [(q.length >>> 8) % 256, q.length % 256]).length =
      2 + RA.tagSize := by
    rw [hlen]
    simp
  have hlen2 : (RA.sealOp (increment t.rnonce) q).length = q.length + RA.tagSize := hlen _ _
  have htake1 : t.inStream.take (2 + RA.tagSize) =
      RA.sealOp t.rnonce [(q.length >>> 8) % 256, q.length % 256] := by
    rw [hs, frameBytes, List.append_assoc]
    exact List.take_left' hlen1
  have hdrop1 : t.inStream.drop (2 + RA.tagSize) =
      RA.sealOp (increment t.rnonce) q ++ rest := by
    rw [hs, frameBytes, List.append_assoc]
    exact List.drop_left' hlen1
  have hsz : decodeLen
      (([(q.length >>> 8) % 256, q.length % 256].getD 0 0))
      (([(q.length >>> 8) % 256, q.length % 256].getD 1 0)) = q.length := by
    simpa using decodeLen_encode hq
  have htake2 : (RA.sealOp (increment t.rnonce) q ++ rest).take (q.length + RA.tagSize) =
      RA.sealOp (increment t.rnonce) q := List.take_left' hlen2
  have hdrop2 : (RA.sealOp (increment t.rnonce) q ++ rest).drop (q.length + RA.tagSize) =
      rest := List.drop_left' hlen2
  unfold aeadRead
  rw [if_neg hnot]
  simp only [htake1, hdrop1, hlen1, lt_self_iff_false, if_false, tunnelOpen]
  simp only [hopen, hsz, htake2, hdrop2, hlen2, lt_self_iff_false, if_false,
    List.take_length]
  by_cases hleft : 0 < (q.drop (min (req - t.cache.length) q.length)).length
  · simp only [if_pos hleft]
  · have hdropnil : q.drop (min (req - t.cache.length) q.length) = [] := by
      have := Nat.eq_zero_of_not_pos hleft
      exact List.eq_nil_of_length_eq_zero this
    rw [if_neg hleft, hdropnil]
    simp

/-! Computation lemmas for `aeadTunnel.write` and the `Write` loop. -/

theorem aeadWriteChunk_oversize (WA : AEADSpec) (budget : Nat) (t : Tunnel) (q : List Nat)
    (h : MaxPayload < q.length) :
    aeadWriteChunk WA budget t q = (0, true, t) := by
  unfold aeadWriteChunk
  rw [if_pos h]

theorem aeadWriteChunk_ok (WA : AEADSpec) (budget : Nat) (t : Tunnel) (q : List Nat)
    (hq : q.length ≤ MaxPayload) (hc : t.calls < budget) :
    aeadWriteChunk WA budget t q =
      (q.length, false,
       { t with wnonce := increment (increment t.wnonce),
                sent := t.sent ++ [frameBytes WA t.wnonce q],
                calls := t.calls + 1,
                cache := cacheAfterSeal (frameBytes WA t.wnonce q) t.cache t.cacheEnd }) := by
  unfold aeadWriteChunk
  rw [if_neg (by omega : ¬ MaxPayload < q.length)]
  simp only [tunnelSeal, frameBytes]
  rw [if_pos (by simpa using hc)]

theorem aeadWriteChunk_fail (WA : AEADSpec) (budget : Nat) (t : Tunnel) (q : List Nat)
    (hq : q.length ≤ MaxPayload) (hc : ¬ t.calls < budget) :
    aeadWriteChunk WA budget t q =
      (0, true,
       { t with wnonce := increment (increment t.wnonce), calls := t.calls + 1,
                cache := cacheAfterSeal (frameBytes WA t.wnonce q) t.cache t.cacheEnd }) := by
  unfold aeadWriteChunk
  rw [if_neg (by omega : ¬ MaxPayload < q.length)]
  simp only [tunnelSeal, frameBytes]
  rw [if_neg (by simpa using hc)]

/-- The list of wire chunks produced for a piece list starting at write
nonce `wn`, one entry per `aeadTunnel.write` call. -/
def chunkList (A : AEADSpec) : List Nat → List (List Nat) → List (List Nat)
  | _, [] => []
  | wn, q :: rest => frameBytes A wn q :: chunkList A (increment (increment wn)) rest

theorem chunkList_flatten (A : AEADSpec) :
    ∀ (ps : List (List Nat)) (wn : List Nat),
      (chunkList A wn ps).flatten = framesWire A wn ps := by
  intro ps
  induction ps with
  | nil => intro wn; rfl
  | cons q rest ih =>
    intro wn
    simp only [chunkList, framesWire, List.flatten_cons]
    rw [ih]

theorem chunkList_length (A : AEADSpec) :
    ∀ (ps : List (List Nat)) (wn : List Nat), (chunkList A wn ps).length = ps.length := by
  intro ps
  induction ps with
  | nil => intro wn; rfl
  | cons q rest ih =>
    intro wn
    simp only [chunkList, List.length_cons]
    rw [ih]

theorem aeadWriteLoop_ok (WA : AEADSpec) (budget : Nat) :
    ∀ (ps : List (List Nat)) (t : Tunnel), (∀ q ∈ ps, q.length ≤ MaxPayload) →
      t.calls + ps.length ≤ budget →
      (aeadWriteLoop WA budget t ps).1 = (ps.flatten).length ∧
      (aeadWriteLoop WA budget t ps).2.1 = false ∧
      (aeadWriteLoop WA budget t ps).2.2.sent = t.sent ++ chunkList WA t.wnonce ps ∧
      (aeadWriteLoop WA budget t ps).2.2.calls = t.calls + ps.length ∧
      (aeadWriteLoop WA budget t ps).2.2.rnonce = t.rnonce ∧
      (aeadWriteLoop WA budget t ps).2.2.inStream = t.inStream := by
  intro ps
  induction ps with
  | nil =>
    intro t h1 h2
    simp [aeadWriteLoop, chunkList]
  | cons q rest ih =>
    intro t h1 h2
    have hq : q.length ≤ MaxPayload := h1 q (List.mem_cons_self _ _)
    have hc : t.calls < budget := by
      simp only [List.length_cons] at h2
      omega
    simp only [aeadWriteLoop]
    rw [aeadWriteChunk_ok WA budget t q hq hc]
    simp only [Bool.false_eq_true, if_false]
    obtain ⟨ih1, ih2, ih3, ih4, ih5, ih6⟩ :=
      ih { t with wnonce := increment (increment t.wnonce),
                  sent := t.sent ++ [frameBytes WA t.wnonce q],
                  calls := t.calls + 1,
                  cache := cacheAfterSeal (frameBytes WA t.wnonce q) t.cache t.cacheEnd }
        (fun z hz => h1 z (List.mem_cons_of_mem _ hz))
        (by simp only [List.length_cons] at h2 ⊢; omega)
    refine ⟨?_, ih2, ?_, ?_, ih5, ih6⟩
    · rw [ih1]
      simp
    · rw [ih3]
      simp only [chunkList]
      simp [List.append_assoc]
    · rw [ih4]
      simp only [List.length_cons]
      omega

theorem aeadWriteLoop_fail (WA : AEADSpec) (budget : Nat) :
    ∀ (ps : List (List Nat)) (t : Tunnel), (∀ q ∈ ps, q.length ≤ MaxPayload) →
      t.calls ≤ budget → budget < t.calls + ps.length →
      (aeadWriteLoop WA budget t ps).1 = ((ps.take (budget - t.calls)).flatten).length ∧
      (aeadWriteLoop WA budget t ps).2.1 = true ∧
      (aeadWriteLoop WA budget t ps).2.2.sent.length = t.sent.length + (budget - t.calls) := by
  intro ps
  induction ps with
  | nil =>
    intro t h1 h2 h3
    simp only [List.length_nil] at h3
    omega
  | cons q rest ih =>
    intro t h1 h2 h3
    have hq : q.length ≤ MaxPayload := h1 q (List.mem_cons_self _ _)
    by_cases hc : t.calls < budget
    · simp only [aeadWriteLoop]
      rw [aeadWriteChunk_ok WA budget t q hq hc]
      simp only [Bool.false_eq_true, if_false]
      obtain ⟨ih1, ih2, ih3⟩ :=
        ih { t with wnonce := increment (increment t.wnonce),
                    sent := t.sent ++ [frameBytes WA t.wnonce q],
                    calls := t.calls + 1,
                    cache := cacheAfterSeal (frameBytes WA t.wnonce q) t.cache t.cacheEnd }
          (fun z hz => h1 z (List.mem_cons_of_mem _ hz))
          (by simpa using hc)
          (by simp only [List.length_cons] at h3 ⊢; omega)
      refine ⟨?_, ih2, ?_⟩
      · rw [ih1]
        have htk : (q :: rest).take (budget - t.calls) =
            q :: rest.take (budget - (t.calls + 1)) := by
          have : budget - t.calls = (budget - (t.calls + 1)) + 1 := by omega
          rw [this, List.take_succ_cons]
        rw [htk]
        simp
      · rw [ih3]
        simp only [List.length_append, List.length_cons, List.length_nil]
        omega
    · simp only [aeadWriteLoop]
      rw [aeadWriteChunk_fail WA budget t q hq hc]
      simp only [if_true]
      have hbc : budget - t.calls = 0 := by omega
      rw [hbc]
      simp

/-! Reader-side invariant tying the remaining stream to the remaining
plaintext pieces, and its preservation across `Read` calls. -/

/-- The unread part of the stream is exactly the wire encoding of the
remaining piece list `ps` under the current read nonce, and every
remaining piece fits in one chunk. -/
def ReadInv (A : AEADSpec) (t : Tunnel) (ps : List (List Nat)) : Prop :=
  (∀ q ∈ ps, q.length ≤ MaxPayload) ∧ t.inStream = framesWire A t.rnonce ps

theorem framesWire_nil (A : AEADSpec) (wn : List Nat) : framesWire A wn [] = [] := rfl

theorem framesWire_nil_iff (A : AEADSpec) (hA : A.Good) (wn : List Nat)
    (ps : List (List Nat)) (h : framesWire A wn ps = []) : ps = [] := by
  cases ps with
  | nil => rfl
  | cons q rest =>
    exfalso
    simp only [framesWire, frameBytes] at h
    have hlength := congrArg List.length h
    simp only [List.length_append, List.length_nil, hA.1] at hlength
    simp at hlength

theorem read_step (A : AEADSpec) (hA : A.Good) (t : Tunnel) (ps : List (List Nat))
    (hInv : ReadInv A t ps) (req : Nat) :
    ∃ ps', ReadInv A (aeadRead A t req).2.2 ps' ∧
      (aeadRead A t req).1 ++ ((aeadRead A t req).2.2.cache ++ ps'.flatten) =
        t.cache ++ ps.flatten ∧
      ((aeadRead A t req).2.2.inStream = [] → ps' = []) := by
  obtain ⟨hps, hw⟩ := hInv
  by_cases hhit : t.cache.length ≠ 0 ∧ req ≤ t.cache.length
  · have hc : t.cache ≠ [] := fun hnil => hhit.1 (by simp [hnil])
    rw [aeadRead_cache_hit A t req hc hhit.2]
    refine ⟨ps, ⟨hps, hw⟩, ?_, ?_⟩
    · rw [← List.append_assoc, List.take_append_drop]
    · intro h0
      exact framesWire_nil_iff A hA _ ps (by rw [← hw]; exact h0)
  · cases ps with
    | nil =>
      have hsnil : t.inStream = [] := by rw [hw, framesWire_nil]
      rw [aeadRead_eof A t req hhit hsnil]
      exact ⟨[], ⟨by simp, rfl⟩, by simp, fun _ => rfl⟩
    | cons q rest =>
      have hq : q.length ≤ MaxPayload := hps q (List.mem_cons_self _ _)
      have hs : t.inStream =
          frameBytes A t.rnonce q ++ framesWire A (increment (increment t.rnonce)) rest := hw
      rw [aeadRead_frame A hA t req q _ hhit hq hs]
      refine ⟨rest, ⟨fun z hz => hps z (List.mem_cons_of_mem _ hz), rfl⟩, ?_, ?_⟩
      · simp only [List.flatten_cons, List.append_assoc]
        congr 1
        rw [← List.append_assoc, List.take_append_drop]
      · intro h0
        exact framesWire_nil_iff A hA _ rest h0

theorem readMany_inv (A : AEADSpec) (hA : A.Good) :
    ∀ (qs : List Nat) (t : Tunnel) (ps : List (List Nat)), ReadInv A t ps →
      ∃ ps', ReadInv A (readMany A t qs).2 ps' ∧
        (readMany A t qs).1 ++ ((readMany A t qs).2.cache ++ ps'.flatten) =
          t.cache ++ ps.flatten ∧
        ((readMany A t qs).2.inStream = [] → ps' = []) := by
  intro qs
  induction qs with
  | nil =>
    intro t ps h
    refine ⟨ps, h, by simp [readMany], ?_⟩
    intro h0
    exact framesWire_nil_iff A hA _ ps (by rw [← h.2]; exact h0)
  | cons r qs ih =>
    intro t ps h
    obtain ⟨ps1, h1, e1, _⟩ := read_step A hA t ps h r
    obtain ⟨ps2, h2, e2, hnil2⟩ := ih (aeadRead A t r).2.2 ps1 h1
    refine ⟨ps2, ?_, ?_, ?_⟩
    · simpa [readMany] using h2
    · simp only [readMany]
      rw [List.append_assoc, e2, e1]
    · simpa [readMany] using hnil2

theorem readMany_drain (A : AEADSpec) (hA : A.Good) :
    ∀ (ps : List (List Nat)) (t : Tunnel), ReadInv A t ps → t.cache = [] →
      (readMany A t (List.replicate ps.length MaxPayload)).1 = ps.flatten ∧
      (readMany A t (List.replicate ps.length MaxPayload)).2.cache = [] ∧
      (readMany A t (List.replicate ps.length MaxPayload)).2.inStream = [] := by
  intro ps
  induction ps with
  | nil =>
    intro t h hc
    refine ⟨rfl, ?_, ?_⟩
    · simpa [readMany] using hc
    · show t.inStream = []
      rw [h.2, framesWire_nil]
  | cons q rest ih =>
    intro t h hc
    have hq : q.length ≤ MaxPayload := h.1 q (List.mem_cons_self _ _)
    have hnot : ¬(t.cache.length ≠ 0 ∧ MaxPayload ≤ t.cache.length) := by
      simp [hc]
    simp only [List.length_cons, List.replicate_succ, readMany]
    rw [aeadRead_frame A hA t MaxPayload q _ hnot hq h.2]
    have hmin : min (MaxPayload - t.cache.length) q.length = q.length := by
      rw [hc]
      simp only [List.length_nil, Nat.sub_zero]
      omega
    rw [hmin, List.take_length, List.drop_length]
    simp only [List.length_nil, lt_self_iff_false, if_false]
    obtain ⟨d1, d2, d3⟩ :=
      ih { t with inStream := framesWire A (increment (increment t.rnonce)) rest,
                  rnonce := increment (increment t.rnonce), cache := [] }
        ⟨fun z hz => h.1 z (List.mem_cons_of_mem _ hz), rfl⟩ rfl
    refine ⟨?_, d2, d3⟩
    rw [hc]
    simp only [List.nil_append, List.flatten_cons]
    rw [d1]

/-! Nonce counting across sequences of Open/Seal calls. -/

theorem openMany_rnonce (RA : AEADSpec) :
    ∀ (cts : List (List Nat)) (t : Tunnel), byteOK t.rnonce →
      leVal ((openMany RA t cts).rnonce) =
        (leVal t.rnonce + cts.length) % 2 ^ (8 * t.rnonce.length) := by
  intro cts
  induction cts with
  | nil =>
    intro t hb
    simp only [openMany, List.length_nil, Nat.add_zero]
    exact (Nat.mod_eq_of_lt (leVal_lt hb)).symm
  | cons ct rest ih =>
    intro t hb
    simp only [openMany, tunnelOpen, List.length_cons]
    have h1 := ih { t with rnonce := increment t.rnonce } (increment_byteOK hb)
    simp only at h1
    rw [h1, leVal_increment hb, increment_length, Nat.mod_add_mod]
    congr 1
    omega

theorem sealMany_wnonce (WA : AEADSpec) :
    ∀ (pts : List (List Nat)) (t : Tunnel), byteOK t.wnonce →
      leVal ((sealMany WA t pts).wnonce) =
        (leVal t.wnonce + pts.length) % 2 ^ (8 * t.wnonce.length) := by
  intro pts
  induction pts with
  | nil =>
    intro t hb
    simp only [sealMany, List.length_nil, Nat.add_zero]
    exact (Nat.mod_eq_of_lt (leVal_lt hb)).symm
  | cons pt rest ih =>
    intro t hb
    simp only [sealMany, tunnelSeal, List.length_cons]
    have h1 := ih { t with wnonce := increment t.wnonce } (increment_byteOK hb)
    simp only at h1
    rw [h1, leVal_increment hb, increment_length, Nat.mod_add_mod]
    congr 1
    omega

/-! Shape lemmas for the remaining claims. -/

theorem aeadRead_miss_take (RA : AEADSpec) (t : Tunnel) (req : Nat)
    (hnot : ¬(t.cache.length ≠ 0 ∧ req ≤ t.cache.length)) :
    ((aeadRead RA t req).1).take t.cache.length = t.cache := by
  unfold aeadRead
  rw [if_neg hnot]
  simp only [tunnelOpen]
  repeat' split
  all_goals simp [List.take_length, List.take_left]

theorem aeadRead_write_fields (RA : AEADSpec) (t : Tunnel) (req : Nat) :
    (aeadRead RA t req).2.2.wnonce = t.wnonce ∧
    (aeadRead RA t req).2.2.sent = t.sent ∧
    (aeadRead RA t req).2.2.calls = t.calls := by
  unfold aeadRead
  simp only [tunnelOpen]
  repeat' split
  all_goals try simp only [Prod.mk.injEq] at *
  all_goals try casesm* _ ∧ _
  all_goals subst_vars
  all_goals first
    | exact ⟨rfl, rfl, rfl⟩
    | simp_all

theorem aeadWriteLoop_read_fields (WA : AEADSpec) (budget : Nat) :
    ∀ (ps : List (List Nat)) (t : Tunnel),
      (aeadWriteLoop WA budget t ps).2.2.rnonce = t.rnonce ∧
      (aeadWriteLoop WA budget t ps).2.2.inStream = t.inStream := by
  intro ps
  induction ps with
  | nil => intro t; exact ⟨rfl, rfl⟩
  | cons q rest ih =>
    intro t
    simp only [aeadWriteLoop]
    unfold aeadWriteChunk
    simp only [tunnelSeal]
    split
    · simp
    · split
      · simp only [Bool.false_eq_true, if_false]
        exact ih _
      · simp

set_option maxHeartbeats 2000000 in
theorem aeadRead_indep (RA : AEADSpec) (t u : Tunnel) (req : Nat)
    (h1 : t.inStream = u.inStream) (h2 : t.cache = u.cache) (h3 : t.rnonce = u.rnonce) :
    (aeadRead RA t req).1 = (aeadRead RA u req).1 ∧
    (aeadRead RA t req).2.1 = (aeadRead RA u req).2.1 ∧
    (aeadRead RA t req).2.2.inStream = (aeadRead RA u req).2.2.inStream ∧
    (aeadRead RA t req).2.2.cache = (aeadRead RA u req).2.2.cache ∧
    (aeadRead RA t req).2.2.rnonce = (aeadRead RA u req).2.2.rnonce := by
  obtain ⟨ti, ts, tc, tr, tw, tca, tce⟩ := t
  obtain ⟨ui, us, uc, ur, uw, uca, uce⟩ := u
  dsimp only at h1 h2 h3
  subst h1
  subst h2
  subst h3
  unfold aeadRead
  simp only [tunnelOpen]
  repeat' split
  all_goals try simp only [Prod.mk.injEq] at *
  all_goals try casesm* _ ∧ _
  all_goals subst_vars
  all_goals first
    | exact ⟨rfl, rfl, rfl, rfl, rfl⟩
    | simp_all

theorem aeadWriteLoop_indep (WA : AEADSpec) (budget : Nat) :
    ∀ (ps : List (List Nat)) (i1 i2 : List Nat) (sn : List (List Nat)) (cl : Nat)
      (rn1 rn2 wn ca1 ca2 : List Nat) (ce1 ce2 : Nat),
      (aeadWriteLoop WA budget ⟨i1, sn, cl, rn1, wn, ca1, ce1⟩ ps).1 =
        (aeadWriteLoop WA budget ⟨i2, sn, cl, rn2, wn, ca2, ce2⟩ ps).1 ∧
      (aeadWriteLoop WA budget ⟨i1, sn, cl, rn1, wn, ca1, ce1⟩ ps).2.1 =
        (aeadWriteLoop WA budget ⟨i2, sn, cl, rn2, wn, ca2, ce2⟩ ps).2.1 ∧
      (aeadWriteLoop WA budget ⟨i1, sn, cl, rn1, wn, ca1, ce1⟩ ps).2.2.wnonce =
        (aeadWriteLoop WA budget ⟨i2, sn, cl, rn2, wn, ca2, ce2⟩ ps).2.2.wnonce ∧
      (aeadWriteLoop WA budget ⟨i1, sn, cl, rn1, wn, ca1, ce1⟩ ps).2.2.sent =
        (aeadWriteLoop WA budget ⟨i2, sn, cl, rn2, wn, ca2, ce2⟩ ps).2.2.sent ∧
      (aeadWriteLoop WA budget ⟨i1, sn, cl, rn1, wn, ca1, ce1⟩ ps).2.2.calls =
        (aeadWriteLoop WA budget ⟨i2, sn, cl, rn2, wn, ca2, ce2⟩ ps).2.2.calls := by
  intro ps
  induction ps with
  | nil =>
    intro i1 i2 sn cl rn1 rn2 wn ca1 ca2 ce1 ce2
    exact ⟨rfl, rfl, rfl, rfl, rfl⟩
  | cons q rest ih =>
    intro i1 i2 sn cl rn1 rn2 wn ca1 ca2 ce1 ce2
    simp only [aeadWriteLoop]
    unfold aeadWriteChunk
    simp only [tunnelSeal]
    split
    · exact ⟨rfl, rfl, rfl, rfl, rfl⟩
    · split
      · simp only [Bool.false_eq_true, if_false]
        obtain ⟨a1, a2, a3, a4, a5⟩ := ih i1 i2
          (sn ++ [WA.sealOp wn [(q.length >>> 8) % 256, q.length % 256] ++
                  WA.sealOp (increment wn) q])
          (cl + 1) rn1 rn2 (increment (increment wn))
          (cacheAfterSeal
            (WA.sealOp wn [(q.length >>> 8) % 256, q.length % 256] ++
              WA.sealOp (increment wn) q) ca1 ce1)
          (cacheAfterSeal
            (WA.sealOp wn [(q.length >>> 8) % 256, q.length % 256] ++
              WA.sealOp (increment wn) q) ca2 ce2)
          ce1 ce2
        exact ⟨by rw [a1], a2, a3, a4, a5⟩
      · exact ⟨rfl, rfl, rfl, rfl, rfl⟩

/-! Facts about the concrete AEAD instances used for witnesses. -/

theorem A0_good : A0.Good := by
  constructor
  · intro nonce m
    simp [A0]
  · intro nonce m
    simp [A0, List.getLast?_concat, List.dropLast_concat]

/-! The claims. -/

/-- C1: round trip.  For any plaintext `p` of length at most `10 * 0x3FFF`,
a `Write` on a fresh tunnel succeeds, reports `p.length` bytes written, and
produces wire bytes such that a tunnel holding the matching key material
(the same AEAD and a read nonce equal to the writer's starting write nonce)
recovers exactly `p`, in order, across `Read` calls of arbitrary requested
sizes: every read schedule yields a prefix of `p`, any read schedule that
exhausts the stream and the leftover cache yields exactly `p`, and the
schedule of one `MaxPayload`-sized request per chunk does exhaust them. -/
theorem C1_round_trip (A : AEADSpec) (hA : A.Good) (p : List Nat)
    (hp : p.length ≤ 10 * 0x3FFF) (t0 r0 : Tunnel) (budget : Nat)
    (hsent : t0.sent = []) (hcalls : t0.calls = 0)
    (hb : (splitPieces p).length ≤ budget)
    (hrc : r0.cache = []) (hrn : r0.rnonce = t0.wnonce)
    (hri : r0.inStream = ((aeadWrite A budget t0 p).2.2.sent).flatten) :
    (aeadWrite A budget t0 p).1 = p.length ∧
    (aeadWrite A budget t0 p).2.1 = false ∧
    (∀ qs : List Nat, ∃ rest, (readMany A r0 qs).1 ++ rest = p) ∧
    (∀ qs : List Nat, (readMany A r0 qs).2.cache = [] →
      (readMany A r0 qs).2.inStream = [] → (readMany A r0 qs).1 = p) ∧
    (readMany A r0 (List.replicate (splitPieces p).length MaxPayload)).1 = p := by
  obtain ⟨w1, w2, w3, w4, w5, w6⟩ :=
    aeadWriteLoop_ok A budget (splitPieces p) t0 (splitPieces_piece_le p) (by omega)
  have hwire : ((aeadWrite A budget t0 p).2.2.sent).flatten =
      framesWire A t0.wnonce (splitPieces p) := by
    show ((aeadWriteLoop A budget t0 (splitPieces p)).2.2.sent).flatten = _
    rw [w3, hsent]
    simp [chunkList_flatten]
  have hInv0 : ReadInv A r0 (splitPieces p) := by
    constructor
    · exact splitPieces_piece_le p
    · rw [hri, hwire, hrn]
  refine ⟨?_, w2, ?_, ?_, ?_⟩
  · show (aeadWriteLoop A budget t0 (splitPieces p)).1 = p.length
    rw [w1, splitPieces_flatten]
  · intro qs
    obtain ⟨ps2, hInv2, he, -⟩ := readMany_inv A hA qs r0 _ hInv0
    refine ⟨(readMany A r0 qs).2.cache ++ ps2.flatten, ?_⟩
    rw [he, hrc, splitPieces_flatten]
    simp
  · intro qs hc hi
    obtain ⟨ps2, hInv2, he, hn⟩ := readMany_inv A hA qs r0 _ hInv0
    have hps2 : ps2 = [] := hn hi
    subst hps2
    rw [hc] at he
    simpa [hrc, splitPieces_flatten p] using he
  · obtain ⟨d1, d2, d3⟩ := readMany_drain A hA (splitPieces p) r0 hInv0 hrc
    rw [d1, splitPieces_flatten]

/-- Witness for C1 at a concrete plaintext `[10, 20, 30]` and the concrete
AEAD `A0`: the write reports 3 bytes, and reading it back returns the
plaintext. -/
theorem C1_round_trip_witness :
    (aeadWrite A0 1 T0 [10, 20, 30]).1 = [10, 20, 30].length ∧
    (readMany A0 rC1 (List.replicate (splitPieces [10, 20, 30]).length MaxPayload)).1 =
      [10, 20, 30] := by
  have h := C1_round_trip A0 A0_good [10, 20, 30] (by norm_num) T0 rC1 1 rfl rfl
    (by decide) rfl rfl (by decide)
  exact ⟨h.1, h.2.2.2.2⟩

/-- C2 counterexample: the claim says the nonce counter advances only on a
successful open, but the `defer` in `aeadTunnel.Open` advances it even when
`RAEAD.Open` fails: on a fresh tunnel, an open that returns an error still
moves the read nonce from `[0]` to `[1]`. -/
theorem C2_nonce_counterexample :
    (tunnelOpen failA T0 [7]).1 = none ∧
    T0.rnonce = [0] ∧
    (tunnelOpen failA T0 [7]).2.rnonce = [1] ∧
    leVal (tunnelOpen failA T0 [7]).2.rnonce = 1 :=
  ⟨rfl, rfl, rfl, rfl⟩

/-- C2 (amended): each nonce counter starts at zero at tunnel creation and
advances by exactly one increment per `Open` or `Seal` call in its
direction — whether or not the open succeeded — and never otherwise; after
`k` such calls the counter read as a little-endian integer equals
`k % 2 ^ (8 * nonceSize)`. -/
theorem C2_nonce_lifecycle (RA WA : AEADSpec) (t : Tunnel) (k : Nat)
    (cts pts : List (List Nat)) (ct pt : List Nat)
    (hr : t.rnonce = initialNonce k) (hw : t.wnonce = initialNonce k) :
    leVal t.rnonce = 0 ∧ leVal t.wnonce = 0 ∧
    (tunnelOpen RA t ct).2.rnonce = increment t.rnonce ∧
    (tunnelSeal WA t pt).2.wnonce = increment t.wnonce ∧
    leVal ((openMany RA t cts).rnonce) = cts.length % 2 ^ (8 * k) ∧
    leVal ((sealMany WA t pts).wnonce) = pts.length % 2 ^ (8 * k) := by
  have hbr : byteOK t.rnonce := by rw [hr]; exact initialNonce_byteOK k
  have hbw : byteOK t.wnonce := by rw [hw]; exact initialNonce_byteOK k
  refine ⟨by rw [hr, leVal_initialNonce], by rw [hw, leVal_initialNonce], rfl, rfl, ?_, ?_⟩
  · rw [openMany_rnonce RA cts t hbr]
    rw [hr, leVal_initialNonce, initialNonce_length]
    simp
  · rw [sealMany_wnonce WA pts t hbw]
    rw [hw, leVal_initialNonce, initialNonce_length]
    simp

/-- Witness for the amended C2 on a fresh tunnel with a one-byte nonce:
three opens leave the read counter at `3 % 256`, one seal leaves the write
counter at `1 % 256`. -/
theorem C2_nonce_lifecycle_witness :
    leVal T0.rnonce = 0 ∧ leVal T0.wnonce = 0 ∧
    (tunnelOpen A0 T0 [9]).2.rnonce = increment T0.rnonce ∧
    (tunnelSeal A0 T0 [7]).2.wnonce = increment T0.wnonce ∧
    leVal ((openMany A0 T0 [[1], [2], [3]]).rnonce) = [[1], [2], [3]].length % 2 ^ (8 * 1) ∧
    leVal ((sealMany A0 T0 [[5]]).wnonce) = [[5]].length % 2 ^ (8 * 1) :=
  C2_nonce_lifecycle A0 A0 T0 1 [[1], [2], [3]] [[5]] [9] [7] rfl rfl

/-- C3 counterexample: the claim says a zero-length write emits exactly one
empty-payload chunk, but the `Write` loop condition `i*MaxPayload < len(p)`
is false immediately for an empty input, so no chunk at all is written. -/
theorem C3_chunk_count_counterexample :
    (aeadWrite A0 1 T0 []).2.2.sent = [] ∧
    ((aeadWrite A0 1 T0 []).2.2.sent).length ≠ 1 :=
  ⟨rfl, by decide⟩

/-- C3 (amended): a single `Write` call on a fresh tunnel whose underlying
stream accepts all writes emits exactly `ceil(L / 0x3FFF)` wire chunks —
in particular zero chunks, not one empty chunk, when `L = 0`. -/
theorem C3_chunk_count (WA : AEADSpec) (budget : Nat) (t : Tunnel) (p : List Nat)
    (hsent : t.sent = []) (hcalls : t.calls = 0)
    (hb : (splitPieces p).length ≤ budget) :
    ((aeadWrite WA budget t p).2.2.sent).length =
      (p.length + MaxPayload - 1) / MaxPayload := by
  obtain ⟨-, -, w3, -, -, -⟩ :=
    aeadWriteLoop_ok WA budget (splitPieces p) t (splitPieces_piece_le p) (by omega)
  show ((aeadWriteLoop WA budget t (splitPieces p)).2.2.sent).length = _
  rw [w3, hsent]
  simp only [List.nil_append, chunkList_length]
  exact splitPieces_length_eq p

/-- Witness for the amended C3: a 2-byte write emits exactly one chunk. -/
theorem C3_chunk_count_witness :
    ((aeadWrite A0 1 T0 [1, 2]).2.2.sent).length =
      ([1, 2].length + MaxPayload - 1) / MaxPayload :=
  C3_chunk_count A0 1 T0 [1, 2] rfl rfl (by decide)

/-- C4 counterexample: the claim says an internal KDF fill failure surfaces
to the caller as an explicit error result, but `hkdfSHA1` panics (aborting
the process) on failure and has no error return at all. -/
theorem C4_kdf_counterexample :
    hkdfSHA1 none = KDFResult.panicked ∧ hkdfSHA1 none ≠ KDFResult.err :=
  ⟨rfl, by decide⟩

/-- C4 (amended): `hkdfSHA1` never returns an explicit error result; when
the HKDF reader fails to fill the requested key, it aborts the process via
`panic` instead. -/
theorem C4_kdf_aborts (fill : Option (List Nat)) :
    hkdfSHA1 fill ≠ KDFResult.err ∧
    (fill = none → hkdfSHA1 fill = KDFResult.panicked) := by
  constructor
  · cases fill <;> simp [hkdfSHA1]
  · intro h
    subst h
    rfl

/-- Witness for the amended C4 at the failing fill. -/
theorem C4_kdf_aborts_witness :
    hkdfSHA1 (none : Option (List Nat)) ≠ KDFResult.err ∧
    hkdfSHA1 (none : Option (List Nat)) = KDFResult.panicked :=
  ⟨(C4_kdf_aborts none).1, (C4_kdf_aborts none).2 rfl⟩

/-- C5: a call of the internal single-chunk write on a piece longer than
`0x3FFF` bytes returns an error with zero bytes written and leaves the
tunnel state — nonce counters, sent chunks, underlying write-call count,
everything — completely unchanged: it is rejected before any sealing or
stream write happens. -/
theorem C5_oversize_reject (WA : AEADSpec) (budget : Nat) (t : Tunnel) (q : List Nat)
    (h : MaxPayload < q.length) :
    aeadWriteChunk WA budget t q = (0, true, t) :=
  aeadWriteChunk_oversize WA budget t q h

/-- Witness for C5 on a 16384-byte piece. -/
theorem C5_oversize_reject_witness :
    aeadWriteChunk A0 5 T0 (List.replicate 16384 1) = (0, true, T0) :=
  C5_oversize_reject A0 5 T0 (List.replicate 16384 1) (by norm_num [MaxPayload])

/-- C6: the decoded chunk payload length is the big-endian 16-bit value of
the two decrypted bytes masked with `0x3FFF`, i.e. that value reduced
modulo `2 ^ 14`; in particular it always lies in `0 .. 0x3FFF`, even when
the top two bits of the length field are set. -/
theorem C6_length_masking (b0 b1 : Nat) (h0 : b0 < 256) (h1 : b1 < 256) :
    decodeLen b0 b1 = (256 * b0 + b1) % 2 ^ 14 ∧ decodeLen b0 b1 ≤ MaxPayload := by
  constructor
  · unfold decodeLen MaxPayload
    rw [Nat.shiftLeft_eq]
    have hmask : (16383 : Nat) = 2 ^ 14 - 1 := by norm_num
    rw [hmask, Nat.and_pow_two_sub_one_eq_mod]
    congr 1
    ring
  · exact decodeLen_le b0 b1

/-- Witness for C6 at the all-ones length field (both top bits set). -/
theorem C6_length_masking_witness :
    decodeLen 255 255 = (256 * 255 + 255) % 2 ^ 14 ∧ decodeLen 255 255 ≤ MaxPayload :=
  C6_length_masking 255 255 (by decide) (by decide)

/-- C7: when the leftover cache is non-empty at the start of a `Read`, the
delivered bytes start with the cached bytes (in order) and anything further
comes only after them; and when the cache alone satisfies the request, the
call returns exactly those bytes with no error and touches nothing but the
cache — the stream, both nonces, and everything else are left unchanged. -/
theorem C7_cache_drain (RA : AEADSpec) (t : Tunnel) (req : Nat) (hc : t.cache ≠ []) :
    (∃ rest, (aeadRead RA t req).1 = t.cache.take req ++ rest) ∧
    (req ≤ t.cache.length →
      aeadRead RA t req = (t.cache.take req, false, { t with cache := t.cache.drop req })) := by
  constructor
  · by_cases hreq : req ≤ t.cache.length
    · refine ⟨[], ?_⟩
      rw [aeadRead_cache_hit RA t req hc hreq]
      simp
    · have hnot : ¬(t.cache.length ≠ 0 ∧ req ≤ t.cache.length) := fun h => hreq h.2
      have htake : t.cache.take req = t.cache := List.take_of_length_le (by omega)
      rw [htake]
      have hshape := aeadRead_miss_take RA t req hnot
      have h2 := (List.take_append_drop t.cache.length ((aeadRead RA t req).1)).symm
      rw [hshape] at h2
      exact ⟨((aeadRead RA t req).1).drop t.cache.length, h2⟩
  · intro hreq
    exact aeadRead_cache_hit RA t req hc hreq

/-- Witness for C7: a tunnel caching `[4, 5, 6]` serves a 2-byte read from
the cache alone. -/
theorem C7_cache_drain_witness :
    aeadRead A0 TC 2 = (TC.cache.take 2, false, { TC with cache := TC.cache.drop 2 }) :=
  (C7_cache_drain A0 TC 2 (by decide)).2 (by decide)

/-- The cache bytes after an in-place seal, in the common case where the
cache region lies entirely inside the freshly sealed chunk: the cached
bytes become the corresponding slice of the chunk's ciphertext. -/
theorem cacheAfterSeal_inside (chunk cache : List Nat) (cacheEnd : Nat)
    (h1 : cache.length ≤ cacheEnd) (h2 : cacheEnd ≤ chunk.length) :
    cacheAfterSeal chunk cache cacheEnd =
      (chunk.drop (cacheEnd - cache.length)).take cache.length := by
  unfold cacheAfterSeal
  have hdrop : cache.drop (chunk.length - (cacheEnd - cache.length)) = [] := by
    apply List.drop_eq_nil_of_le
    omega
  rw [hdrop, List.append_nil]

/-- C8 counterexample: the claim says every write leaves the read-direction
leftover cache unchanged, but `c.cache` is a re-slice of the shared scratch
buffer (src/aead.go line 130) and `aeadTunnel.write` seals in place into
that buffer (lines 156-157).  On a tunnel caching the undelivered bytes
`[9, 9]` of an earlier frame (buffer region `[1, 3)`), writing the single
byte `5` succeeds, yet the cached bytes become `[1, 0]` — bytes 1 and 2 of
the freshly sealed chunk `[0, 1, 0, 5, 0]` — so the write altered the
leftover cache. -/
theorem C8_cache_clobber_counterexample :
    W8.cache = [9, 9] ∧
    (aeadWrite A0 1 W8 [5]).2.1 = false ∧
    (aeadWrite A0 1 W8 [5]).2.2.cache = [1, 0] ∧
    (aeadWrite A0 1 W8 [5]).2.2.cache ≠ W8.cache :=
  ⟨rfl, rfl, rfl, by decide⟩

/-- C8 (amended): direction independence holds except for the leftover
cache's bytes.  A `Read` never changes the write-direction state (write
nonce, chunks sent, underlying write calls) and its outcome and
read-direction effects do not depend on it.  A `Write` never changes the
read-direction nonce counter or the unread stream, and its outcome and
write-direction effects do not depend on any read-direction state; the
AEAD transforms are immutable values, so neither call can alter them.  But
a `Write` does not leave the leftover cache's bytes unchanged: its
in-place `Seal` calls overwrite the shared scratch buffer that a non-empty
cache aliases, and when the cache region lies inside the freshly sealed
chunk the cached bytes become that chunk's corresponding ciphertext
bytes. -/
theorem C8_direction_independence (RA WA : AEADSpec) (budget req : Nat) (p q : List Nat)
    (t u : Tunnel) :
    ((aeadRead RA t req).2.2.wnonce = t.wnonce ∧
     (aeadRead RA t req).2.2.sent = t.sent ∧
     (aeadRead RA t req).2.2.calls = t.calls) ∧
    ((aeadWrite WA budget t p).2.2.rnonce = t.rnonce ∧
     (aeadWrite WA budget t p).2.2.inStream = t.inStream) ∧
    (t.inStream = u.inStream → t.cache = u.cache → t.rnonce = u.rnonce →
      (aeadRead RA t req).1 = (aeadRead RA u req).1 ∧
      (aeadRead RA t req).2.1 = (aeadRead RA u req).2.1 ∧
      (aeadRead RA t req).2.2.rnonce = (aeadRead RA u req).2.2.rnonce) ∧
    (t.wnonce = u.wnonce → t.sent = u.sent → t.calls = u.calls →
      (aeadWrite WA budget t p).1 = (aeadWrite WA budget u p).1 ∧
      (aeadWrite WA budget t p).2.1 = (aeadWrite WA budget u p).2.1 ∧
      (aeadWrite WA budget t p).2.2.sent = (aeadWrite WA budget u p).2.2.sent) ∧
    (q.length ≤ MaxPayload → t.calls < budget →
      t.cache.length ≤ t.cacheEnd → t.cacheEnd ≤ (frameBytes WA t.wnonce q).length →
      (aeadWriteChunk WA budget t q).2.2.cache =
        ((frameBytes WA t.wnonce q).drop (t.cacheEnd - t.cache.length)).take
          t.cache.length) := by
  refine ⟨aeadRead_write_fields RA t req, aeadWriteLoop_read_fields WA budget _ t,
    ?_, ?_, ?_⟩
  · intro h1 h2 h3
    obtain ⟨a1, a2, -, -, a5⟩ := aeadRead_indep RA t u req h1 h2 h3
    exact ⟨a1, a2, a5⟩
  · intro h1 h2 h3
    obtain ⟨ti, ts, tc, tr, tw, tca, tce⟩ := t
    obtain ⟨ui, us, uc, ur, uw, uca, uce⟩ := u
    dsimp only at h1 h2 h3
    subst h1
    subst h2
    subst h3
    obtain ⟨a1, a2, -, a4, -⟩ :=
      aeadWriteLoop_indep WA budget (splitPieces p) ti ui ts tc tr ur tw tca uca tce uce
    exact ⟨a1, a2, a4⟩
  · intro hq hc h1 h2
    rw [aeadWriteChunk_ok WA budget t q hq hc]
    exact cacheAfterSeal_inside _ _ _ h1 h2

/-- Witness for the amended C8: on concrete tunnels, a read leaves the
write nonce alone and ignores a changed write nonce; a write leaves the
read nonce alone and ignores a changed read nonce; and the chunk write on
the caching tunnel `W8` turns its cached bytes into the matching slice of
the sealed chunk. -/
theorem C8_direction_independence_witness :
    (aeadRead A0 T0 3).2.2.wnonce = T0.wnonce ∧
    (aeadRead A0 T0 3).1 = (aeadRead A0 { T0 with wnonce := [9] } 3).1 ∧
    (aeadWrite A0 1 T0 [1, 2]).2.2.rnonce = T0.rnonce ∧
    (aeadWrite A0 1 T0 [1, 2]).2.2.sent =
      (aeadWrite A0 1 { T0 with rnonce := [9] } [1, 2]).2.2.sent ∧
    (aeadWriteChunk A0 1 W8 [5]).2.2.cache =
      ((frameBytes A0 W8.wnonce [5]).drop (W8.cacheEnd - W8.cache.length)).take
        W8.cache.length := by
  refine ⟨(C8_direction_independence A0 A0 1 3 [1, 2] [5] T0 T0).1.1, ?_,
    (C8_direction_independence A0 A0 1 3 [1, 2] [5] T0 T0).2.1.1, ?_, ?_⟩
  · exact ((C8_direction_independence A0 A0 1 3 [1, 2] [5] T0
      { T0 with wnonce := [9] }).2.2.1 rfl rfl rfl).1
  · exact ((C8_direction_independence A0 A0 1 3 [1, 2] [5] T0
      { T0 with rnonce := [9] }).2.2.2.1 rfl rfl rfl).2.2
  · exact (C8_direction_independence A0 A0 1 3 [1, 2] [5] W8 W8).2.2.2.2
      (by decide) (by decide) (by decide) (by decide)

/-- C9: partial-write accounting.  If the underlying stream accepts only
`budget` write calls and the input needs more chunks than that, `Write`
returns an error together with a byte count equal to the total plaintext
length of exactly the pieces whose wire chunks were fully written before
the failing one; the failed and unattempted pieces contribute zero bytes,
and exactly `budget` chunks were sent (nothing is retried). -/
theorem C9_partial_write (WA : AEADSpec) (budget : Nat) (t : Tunnel) (p : List Nat)
    (hcalls : t.calls = 0) (hb : budget < (splitPieces p).length) :
    (aeadWrite WA budget t p).1 = (((splitPieces p).take budget).flatten).length ∧
    (aeadWrite WA budget t p).2.1 = true ∧
    (aeadWrite WA budget t p).2.2.sent.length = t.sent.length + budget := by
  obtain ⟨f1, f2, f3⟩ :=
    aeadWriteLoop_fail WA budget (splitPieces p) t (splitPieces_piece_le p)
      (by omega) (by omega)
  rw [hcalls, Nat.sub_zero] at f1 f3
  exact ⟨f1, f2, f3⟩

/-- Witness for C9 with a stream that fails on the very first write call:
zero bytes are reported, an error is returned, and no chunk was sent. -/
theorem C9_partial_write_witness :
    (aeadWrite A0 0 T0 [1, 2, 3]).1 = (((splitPieces [1, 2, 3]).take 0).flatten).length ∧
    (aeadWrite A0 0 T0 [1, 2, 3]).2.1 = true ∧
    (aeadWrite A0 0 T0 [1, 2, 3]).2.2.sent.length = T0.sent.length + 0 :=
  C9_partial_write A0 0 T0 [1, 2, 3] rfl (by decide)

/-- C10: a zero-length read on a tunnel with a non-empty leftover cache
returns no bytes and no error and leaves the tunnel untouched; on a tunnel
with an empty cache it still consumes and decrypts one complete frame from
the stream, stores the frame's entire decrypted payload in the leftover
cache, advances the read nonce twice, and returns no bytes. -/
theorem C10_zero_length_read (RA : AEADSpec) (t : Tunnel) :
    (t.cache ≠ [] → aeadRead RA t 0 = ([], false, t)) ∧
    (∀ q rest : List Nat, RA.Good → t.cache = [] → q.length ≤ MaxPayload →
      t.inStream = frameBytes RA t.rnonce q ++ rest →
      aeadRead RA t 0 = ([], false,
        { t with inStream := rest, cache := q,
                 rnonce := increment (increment t.rnonce),
                 cacheEnd := if 0 < q.length then q.length else t.cacheEnd })) := by
  constructor
  · intro hc
    rw [aeadRead_cache_hit RA t 0 hc (Nat.zero_le _)]
    simp [List.take_zero, List.drop_zero]
  · intro q rest hA hc hq hs
    have hnot : ¬(t.cache.length ≠ 0 ∧ (0 : Nat) ≤ t.cache.length) := by
      simp [hc]
    rw [aeadRead_frame RA hA t 0 q rest hnot hq hs]
    have hmin : min (0 - t.cache.length) q.length = 0 := by
      simp
    rw [hmin, List.take_zero, List.drop_zero, hc]
    simp

/-- Witness for C10: a zero-length read on the cached tunnel returns
nothing and changes nothing; on the frame-holding tunnel it caches the
whole 3-byte payload and advances the read nonce from `[0]` to `[2]`. -/
theorem C10_zero_length_read_witness :
    aeadRead A0 TC 0 = ([], false, TC) ∧
    aeadRead A0 rC1 0 = ([], false,
      { rC1 with inStream := [], cache := [10, 20, 30],
                 rnonce := increment (increment rC1.rnonce), cacheEnd := 3 }) := by
  refine ⟨(C10_zero_length_read A0 TC).1 (by decide), ?_⟩
  exact (C10_zero_length_read A0 rC1).2 [10, 20, 30] [] A0_good rfl (by decide) (by decide)

end Shadowsocks
